import Mathlib

/-!
Verification development for the PDF ingestion-and-hybrid-retrieval pipeline
of the AI Book Tutor application (source file `src/ingest.py`).

Text is modelled as `List Char`.  The regular expressions of
`HEADING_PATTERNS` are embedded as matchers applied at every line start of
the page text, mirroring the semantics of `re.search` with `re.MULTILINE`
on the compiled patterns.  The stateful tagging loop of
`ingest_pdf_to_vectordb` is embedded as a fold over page documents carrying
the `current_chapter` state and a counter into a stream of random suffixes
that stands for the successive `uuid4().hex[:8]` draws.
-/

abbrev Str := List Char

/-- Whitespace class of the regex escape backslash-s and of the Python
string strip method, restricted to ASCII: space, tab, newline, carriage
return, vertical tab, form feed. -/
def isPySpace (c : Char) : Bool :=
  c = ' ' || c = '\t' || c = '\n' || c = '\r' || c = Char.ofNat 11 || c = Char.ofNat 12

/-- Word character for the word-boundary assertion of the regex: letters,
digits and the underscore (ASCII). -/
def isWordChar (c : Char) : Bool :=
  c.isAlpha || c.isDigit || c = '_'

/-- Case-insensitive comparison is modelled by mapping `Char.toLower`
over the text, as Python lowercasing does on ASCII input. -/
def lowerStr (s : Str) : Str := s.map Char.toLower

/-- Decides whether `needle` occurs as a contiguous substring of `hay`,
mirroring the Python expression `needle in hay`. -/
def containsSub (needle : Str) : Str → Bool
  | [] => needle.isEmpty
  | c :: rest => needle.isPrefixOf (c :: rest) || containsSub needle rest

/-- Consumes the iterated group of a dotted numeral: zero or more
repetitions of a dot followed by one or more digits, greedily (the pattern
fragment open-paren question-colon backslash-period backslash-d plus
close-paren star).  Returns the consumed characters and the rest.  The
first argument is structural fuel; callers pass the length of the input,
which bounds the number of repetitions. -/
def parseDotTail : Nat → Str → (Str × Str)
  | 0, s => ([], s)
  | fuel + 1, s =>
    match s with
    | '.' :: rest =>
      if (rest.head?.map Char.isDigit).getD false then
        let ds := rest.takeWhile Char.isDigit
        let r := rest.dropWhile Char.isDigit
        let (a, b) := parseDotTail fuel r
        ('.' :: (ds ++ a), b)
      else ([], '.' :: rest)
    | other => ([], other)

/-- Matcher for pattern 1 of `HEADING_PATTERNS` applied at a line start:
a line beginning with the word chapter in any capitalisation (IGNORECASE),
followed by a word boundary, then the rest of the line.  Returns the
matched span, which runs to the end of the line. -/
def matchChapterAt (s : Str) : Option Str :=
  if lowerStr (s.take 7) = "chapter".toList ∧
      ((s.drop 7).head?.map (fun c => !isWordChar c)).getD true then
    some (s.takeWhile (· ≠ '\n'))
  else none

/-- Matcher for pattern 2 of `HEADING_PATTERNS` applied at a line start:
as pattern 1 with the keyword section. -/
def matchSectionAt (s : Str) : Option Str :=
  if lowerStr (s.take 7) = "section".toList ∧
      ((s.drop 7).head?.map (fun c => !isWordChar c)).getD true then
    some (s.takeWhile (· ≠ '\n'))
  else none

/-- Shared numeral-prefix parse of patterns 3 and 4: one or more digits
followed by the dotted tail, then the maximal run of whitespace.  Returns
(numeral, whitespace, rest) when the numeral part is nonempty. -/
def parseNumHead (s : Str) : Option (Str × Str × Str) :=
  let ds := s.takeWhile Char.isDigit
  if ds.isEmpty then none
  else
    let r1 := s.dropWhile Char.isDigit
    let (dots, r2) := parseDotTail r1.length r1
    let w := r2.takeWhile isPySpace
    let r3 := r2.dropWhile isPySpace
    some (ds ++ dots, w, r3)

/-- Largest index j with 1 ≤ j < length of w such that the character of w
at j is not a newline.  This realises the backtracking of the greedy
whitespace quantifier of pattern 3 when nothing follows the whitespace
run: the dot-plus part must start inside the run, as far right as
possible, on a non-newline character. -/
def backSplit (w : Str) : Option Nat :=
  (List.range w.length).reverse.find? fun j =>
    decide (1 ≤ j) && ((w.get? j).map (fun c => decide (c ≠ '\n'))).getD false

/-- Matcher for pattern 3 of `HEADING_PATTERNS` applied at a line start:
a dotted numeral sequence, then one or more whitespace characters (which
may cross line ends), then at least one non-newline character, extended
greedily to the end of that line.  When the text ends inside the
whitespace run the greedy quantifiers backtrack as `backSplit` selects. -/
def matchNumAt (s : Str) : Option Str :=
  match parseNumHead s with
  | none => none
  | some (num, w, r3) =>
    if w.isEmpty then none
    else if !r3.isEmpty then some (num ++ w ++ r3.takeWhile (· ≠ '\n'))
    else
      match backSplit w with
      | some j => some (num ++ w.take (j + 1))
      | none => none

/-- Matcher for pattern 4 of `HEADING_PATTERNS` applied at a line start:
as pattern 3 but the character after the whitespace run must be an ASCII
letter; the greedy whitespace quantifier cannot backtrack usefully here
because a shorter run would put a whitespace character where the letter is
required. -/
def matchNumAlphaAt (s : Str) : Option Str :=
  match parseNumHead s with
  | none => none
  | some (num, w, r3) =>
    if w.isEmpty then none
    else
      match r3 with
      | c :: _ => if c.isAlpha then some (num ++ w ++ r3.takeWhile (· ≠ '\n')) else none
      | [] => none

/-- Consumes a literal (given in lowercase) case-insensitively; returns
the rest of the input on success. -/
def stripCI (lit : Str) (s : Str) : Option Str :=
  if lowerStr (s.take lit.length) = lit then some (s.drop lit.length) else none

/-- Consumes one or more whitespace characters greedily; returns the rest
of the input on success. -/
def stripWS (s : Str) : Option Str :=
  if (s.takeWhile isPySpace).isEmpty then none else some (s.dropWhile isPySpace)

/-- The apostrophe character, used by the diagnostic literal of pattern 5. -/
def apos : Char := Char.ofNat 39

/-- Matcher for pattern 5 of `HEADING_PATTERNS` applied at a line start:
the case-insensitive diagnostic literal chapter-period, whitespace, the
word here with an apostrophe s, whitespace, the, whitespace, link-colon.
The span is exactly the consumed text. -/
def matchDiagAt (s : Str) : Option Str :=
  (stripCI "chapter.".toList s).bind fun r1 =>
  (stripWS r1).bind fun r2 =>
  (stripCI ("here".toList ++ apos :: "s".toList) r2).bind fun r3 =>
  (stripWS r3).bind fun r4 =>
  (stripCI "the".toList r4).bind fun r5 =>
  (stripWS r5).bind fun r6 =>
  (stripCI "link:".toList r6).map fun r7 =>
  s.take (s.length - r7.length)

/-- Suffixes of the text at every line start, in increasing order of
position: the whole text, then the suffix after each newline.  `re.search`
with MULTILINE tries every position from left to right, and the caret
restricts success to these positions. -/
def lineStartSuffixes (t : Str) : List Str :=
  t :: go t
where
  go : Str → List Str
  | [] => []
  | c :: cs => if c = '\n' then cs :: go cs else go cs

/-- Search of one compiled pattern over the full text: the match at the
earliest line start at which the matcher succeeds, mirroring
`pattern.search(text)` for the line-anchored MULTILINE patterns. -/
def searchPat (m : Str → Option Str) (t : Str) : Option Str :=
  (lineStartSuffixes t).findSome? m

/-- The five ordered pattern matchers of `HEADING_PATTERNS` in
`src/ingest.py`, in source order. -/
def HEADING_PATTERNS : List (Str → Option Str) :=
  [matchChapterAt, matchSectionAt, matchNumAt, matchNumAlphaAt, matchDiagAt]

/-- Embedding of `extract_heading` of `src/ingest.py`: try each pattern in
priority order with `pattern.search`, return the group(0) span of the
first pattern that matches anywhere in the text, else none. -/
def extract_heading (t : Str) : Option Str :=
  HEADING_PATTERNS.findSome? (fun m => searchPat m t)

/-- Metadata values of a document dictionary: strings, integers, or the
Python value None. -/
inductive MVal where
  | str : Str → MVal
  | nat : Nat → MVal
  | null : MVal
deriving DecidableEq, Repr

/-- Metadata dictionaries are association lists from fixed string keys to
values; a key missing from the list models an absent dictionary entry. -/
abbrev Metadata := List (String × MVal)

/-- Lookup of a key, mirroring dictionary access with a default of no
value. -/
def metaGet : Metadata → String → Option MVal
  | [], _ => none
  | (k, v) :: rest, key => if k = key then some v else metaGet rest key

/-- Reads an integer metadata entry, as the loop of `src/ingest.py` does
with the expression page metadata get page, defaulting to None. -/
def metaGetNat (m : Metadata) (key : String) : Option Nat :=
  match metaGet m key with
  | some (.nat n) => some n
  | _ => none

/-- A LangChain document: page content plus a metadata dictionary. -/
structure Document where
  page_content : Str
  metadata : Metadata
deriving DecidableEq, Repr

/-- Modelled from the spec: the external `RecursiveCharacterTextSplitter`
(chunk size 1000, chunk overlap 200) is not part of this repository; the
spec describes it as splitting a long fragment into overlapping windows of
fixed size 1000 with a fixed overlap of 200 between consecutive windows,
falling back to a hard cut.  `windowsFrom s off` is the window list
starting at offset `off`: full windows advance by 800 so that consecutive
windows share 200 characters, and the final window runs to the end. -/
def windowsFrom (s : Str) (off : Nat) : List Str :=
  if h : off + 1000 < s.length then
    (s.drop off).take 1000 :: windowsFrom s (off + 800)
  else [s.drop off]
termination_by s.length - off
decreasing_by omega

/-- Modelled from the spec: `split_text` of the external splitter — a
fragment of length at most the 1000-character threshold is returned as a
single unit, a longer one becomes the overlapping window sequence. -/
def split_text (s : Str) : List Str :=
  if s.length ≤ 1000 then [s] else windowsFrom s 0

/-- Modelled from the spec: `split_documents` of the external splitter
splits each page content and copies the page metadata unchanged onto
every piece.  This produces the `chunks` value of `src/ingest.py` line 58,
over which the FAISS and TF-IDF indices are then built. -/
def split_documents (docs : List Document) : List Document :=
  docs.flatMap fun d => (split_text d.page_content).map fun c => ⟨c, d.metadata⟩

/-- The lowercase chapter keyword of the classification chain. -/
def chapterWord : Str := "chapter".toList

/-- The lowercase section keyword of the classification chain. -/
def sectionWord : Str := "section".toList

/-- Python truthiness of the optional heading string: None and the empty
string are falsy. -/
def truthy : Option Str → Bool
  | some h => !h.isEmpty
  | none => false

/-- The classification test of line 79 of `src/ingest.py`: `re.match` of a
dotted numeral followed by at least one whitespace character, anchored at
the start of the heading. -/
def numHeadingMatch (h : Str) : Bool :=
  match parseNumHead h with
  | some (_, w, _) => !w.isEmpty
  | none => false

/-- Embedding of lines 70 to 83 of `src/ingest.py` for one fragment:
given the extracted heading and the current chapter state, produce the
final chapter tag (falling back to the carried state when the page has no
chapter heading), the section tag, and the updated state.  The if/elif
chain gives the chapter keyword precedence over the section keyword and
the numbered-heading rule. -/
def tagFragment (heading : Option Str) (cur : Option Str) :
    Option Str × Option Str × Option Str :=
  let step : Option Str × Option Str × Option Str :=
    if truthy heading then
      if containsSub chapterWord (lowerStr (heading.getD [])) then
        (some (heading.getD []), none, some (heading.getD []))
      else if containsSub sectionWord (lowerStr (heading.getD [])) then
        (none, some (heading.getD []), cur)
      else if numHeadingMatch (heading.getD []) then (none, some (heading.getD []), cur)
      else (none, none, cur)
    else (none, none, cur)
  match step with
  | (some c, sectionTag, cur') => (some c, sectionTag, cur')
  | (none, sectionTag, cur') => (cur', sectionTag, cur')

/-- Python strip: remove leading and trailing whitespace. -/
def pyStrip (s : Str) : Str :=
  ((s.dropWhile isPySpace).reverse.dropWhile isPySpace).reverse

/-- Decimal digit characters of a natural number below a fuel bound; the
fuel only guarantees structural recursion and exceeds the digit count for
every caller. -/
def natDigitsGo : Nat → Nat → Str
  | 0, _ => []
  | fuel + 1, m =>
    if m < 10 then [Char.ofNat (48 + m)]
    else natDigitsGo fuel (m / 10) ++ [Char.ofNat (48 + m % 10)]

/-- Decimal digit characters of a natural number, mirroring the rendering
of an integer inside the chunk identifier f-string. -/
def natDigits (n : Nat) : Str := natDigitsGo (n + 1) n

/-- Rendering of the optional page number inside the chunk identifier:
an integer renders as its decimal digits, the Python value None renders
as the four letters None. -/
def pageNumStr : Option Nat → Str
  | some n => natDigits n
  | none => "None".toList

/-- The chunk identifier of line 102 of `src/ingest.py`: source basename,
then page, fragment and sub-chunk indices, then the random suffix, joined
with underscore separators. -/
def chunkIdStr (base : Str) (page_num : Option Nat) (frag_idx sidx : Nat) (suffix : Str) : Str :=
  base ++ '_' :: 'p' :: (pageNumStr page_num ++ '_' :: 'f' ::
    (natDigits frag_idx ++ '_' :: 's' :: (natDigits sidx ++ '_' :: suffix)))

/-- The metadata value stored under the page number key: the integer when
the page metadata carried one, else the Python value None. -/
def pageMetaVal : Option Nat → MVal
  | some n => .nat n
  | none => .null

/-- The metadata dictionary built at lines 96 to 103 of `src/ingest.py`
for one emitted chunk. -/
def chunkMeta (book chap sectionTag : Str) (page_num : Option Nat) (base idv : Str) : Metadata :=
  [("book_title", .str book),
   ("chapter", .str chap),
   ("section", .str sectionTag),
   ("page_number", pageMetaVal page_num),
   ("source", .str base),
   ("chunk_id", .str idv)]

/-- Embedding of the sub-chunk loop of lines 91 to 104 of `src/ingest.py`:
walk the enumerated sub-chunks, strip each, silently skip the ones that
are empty after stripping, and emit a tagged document for the rest.  The
counter `k` indexes the stream `uuid` of random suffixes, advancing once
per emitted chunk; the result pairs the emitted documents with the final
counter. -/
def emitChunks (base book : Str) (uuid : Nat → Str) (page_num : Option Nat)
    (frag_idx : Nat) (chapter sectionTag : Option Str) :
    List (Nat × Str) → Nat → List Document × Nat
  | [], k => ([], k)
  | (sidx, raw) :: rest, k =>
    let chunk_text := pyStrip raw
    if chunk_text.isEmpty then
      emitChunks base book uuid page_num frag_idx chapter sectionTag rest k
    else
      let meta := chunkMeta book (chapter.getD []) (sectionTag.getD []) page_num base
        (chunkIdStr base page_num frag_idx sidx (uuid k))
      let (ds, k') :=
        emitChunks base book uuid page_num frag_idx chapter sectionTag rest (k + 1)
      (⟨chunk_text, meta⟩ :: ds, k')

/-- The small-chunks expression of lines 85 to 89 of `src/ingest.py`:
split the fragment text when it exceeds 1000 characters, else keep it as
a one-element list. -/
def small_chunks (frag_text : Str) : List Str :=
  if 1000 < frag_text.length then split_text frag_text else [frag_text]

/-- Embedding of the fragment loop of lines 69 to 104 of `src/ingest.py`
(the `fragments` list built at line 67 is a single pair of heading and
page text, so the enumeration carries fragment index 0).  Threads the
chapter state and the suffix counter left to right. -/
def processFragments (base book : Str) (uuid : Nat → Str) (page_num : Option Nat) :
    List (Nat × (Option Str × Str)) → Option Str → Nat → List Document × Option Str × Nat
  | [], cur, k => ([], cur, k)
  | (frag_idx, (heading, frag_text)) :: rest, cur, k =>
    let (chapter, sectionTag, cur') := tagFragment heading cur
    let (emitted, k') := emitChunks base book uuid page_num frag_idx chapter sectionTag
      ((small_chunks frag_text).enum) k
    let (restDocs, cur'', k'') := processFragments base book uuid page_num rest cur' k'
    (emitted ++ restDocs, cur'', k'')

/-- Embedding of the body of the page loop of lines 63 to 104 of
`src/ingest.py` for one page document: read the page text and page
number, extract the single heading, wrap heading and text into the
one-element fragments list, and run the fragment loop. -/
def pageStep (base book : Str) (uuid : Nat → Str) (cur : Option Str) (k : Nat)
    (page_doc : Document) : List Document × Option Str × Nat :=
  let page_text := page_doc.page_content
  let page_num := metaGetNat page_doc.metadata "page"
  let heading := extract_heading page_text
  let fragments := [(heading, page_text)]
  processFragments base book uuid page_num fragments.enum cur k

/-- Embedding of the page loop of `src/ingest.py`: fold `pageStep` over
the loaded page documents, starting from an empty chapter state, and
collect the tagged chunk documents in order. -/
def processPages (base book : Str) (uuid : Nat → Str) :
    List Document → Option Str → Nat → List Document
  | [], _, _ => []
  | pd :: rest, cur, k =>
    let (docs, cur', k') := pageStep base book uuid cur k pd
    docs ++ processPages base book uuid rest cur' k'

/-- The basename of a path: the component after the last slash, as the
Python basename function yields for ordinary file paths. -/
def basename (p : Str) : Str :=
  (p.reverse.takeWhile (· ≠ '/')).reverse

/-- The root part of a filename as the Python splitext function yields
it: everything before the last dot, except that a name whose only dot
characters are leading is returned whole. -/
def splitextRoot (name : Str) : Str :=
  let lead := name.takeWhile (· = '.')
  let rest := name.dropWhile (· = '.')
  if rest.contains '.' then
    lead ++ (rest.reverse.dropWhile (· ≠ '.')).tail.reverse
  else name

/-- Outcome of the external `PyPDFLoader` on a path: `failed` when the
path is missing or the file is not a valid PDF (the loader raises), and
`ok texts` with one raw text per physical page otherwise, a zero-page
document giving the empty list. -/
inductive LoadResult where
  | failed : LoadResult
  | ok : List Str → LoadResult
deriving DecidableEq

/-- Errors of the modelled pipeline: `loadError` stands for the exception
propagated out of `PyPDFLoader.load`, `emptyIndexError` for the exception
raised inside FAISS index construction when the document list is empty
(embedding an empty batch yields no vector whose dimension could be
read). -/
inductive IngestError where
  | loadError : IngestError
  | emptyIndexError : IngestError
deriving DecidableEq, Repr

/-- Page documents as `PyPDFLoader.load` returns them: one document per
page in order, with metadata carrying the source path and the zero-based
page index. -/
def pageDocs (pdf_path : Str) (texts : List Str) : List Document :=
  texts.enum.map fun it => ⟨it.2, [("source", .str pdf_path), ("page", .nat it.1)]⟩

/-- A FAISS vector store, abstracted to the documents it indexes. -/
structure VectorStore where
  docs : List Document
deriving DecidableEq, Repr

/-- Model of `FAISS.from_documents`: fails on an empty document list (as
the real call does before anything is persisted), else indexes exactly the
given documents. -/
def FAISS_from_documents (docs : List Document) : Except IngestError VectorStore :=
  if docs.isEmpty then .error .emptyIndexError else .ok ⟨docs⟩

/-- A TF-IDF retriever, abstracted to the documents it indexes. -/
structure TFIDFStore where
  docs : List Document
deriving DecidableEq, Repr

/-- Model of `TFIDFRetriever.from_documents` over a document list. -/
def TFIDF_from_documents (docs : List Document) : TFIDFStore :=
  ⟨docs⟩

/-- The hybrid ensemble retriever: the document lists of its two
sub-retrievers together with the fixed weights 0.6 and 0.4.  Any document
a search can return comes from one of the two indexed lists. -/
structure EnsembleRetriever where
  retrievers : List (List Document)
  weights : List ℚ
deriving DecidableEq, Repr

/-- The triple returned by `ingest_pdf_to_vectordb` at line 126 of
`src/ingest.py`. -/
structure IngestReturn where
  hybrid_retriever : EnsembleRetriever
  vectorstore : VectorStore
  chunk_docs : List Document
deriving DecidableEq, Repr

/-- Embedding of `ingest_pdf_to_vectordb` of `src/ingest.py`.  The load
outcome stands for the filesystem and PDF parsing; `uuid` is the stream of
random suffixes.  The second component of the result is the list of paths
persisted to disk (`save_local` at line 111); a failure before that line
persists nothing and returns no retriever. -/
def ingest_pdf_to_vectordb (pdf_path : Str) (load : LoadResult) (uuid : Nat → Str) :
    Except IngestError IngestReturn × List Str :=
  let collection_name := splitextRoot (basename pdf_path)
  match load with
  | .failed => (.error .loadError, [])
  | .ok texts =>
    let doc := pageDocs pdf_path texts
    let chunks := split_documents doc
    let chunk_docs := processPages (basename pdf_path) collection_name uuid doc none 0
    match FAISS_from_documents chunks with
    | .error e => (.error e, [])
    | .ok vectorstore =>
      let faiss_index_path := "vector_stores/".toList ++ collection_name ++ "_faiss".toList
      let retriever2 := TFIDF_from_documents chunks
      let hybrid_retriever : EnsembleRetriever :=
        ⟨[vectorstore.docs, retriever2.docs], [6 / 10, 4 / 10]⟩
      (.ok ⟨hybrid_retriever, vectorstore, chunk_docs⟩, [faiss_index_path])

/-- The chapter metadata entry of a chunk document. -/
def chapterMetaOf (d : Document) : Option MVal := metaGet d.metadata "chapter"

/-- The section metadata entry of a chunk document. -/
def sectionMetaOf (d : Document) : Option MVal := metaGet d.metadata "section"

/-- The chunk identifier metadata entry of a chunk document. -/
def chunkIdOf (d : Document) : Option MVal := metaGet d.metadata "chunk_id"

/-- The page number a page document carries, as the loop reads it. -/
def pageNumOf (d : Document) : Option Nat := metaGetNat d.metadata "page"

/-- Classification test used by the tracker (line 74 of `src/ingest.py`):
the page has a truthy heading whose lowercase form contains the word
chapter. -/
def classifiedChapter (heading : Option Str) : Bool :=
  truthy heading && containsSub chapterWord (lowerStr (heading.getD []))

/-- Classification test for a section tag (lines 77 to 80 of
`src/ingest.py`): a truthy heading that is not chapter-classified and
either contains the word section or matches the numbered-heading rule. -/
def classifiedSection (heading : Option Str) : Bool :=
  truthy heading && !classifiedChapter heading &&
    (containsSub sectionWord (lowerStr (heading.getD [])) ||
      numHeadingMatch (heading.getD []))

/-- A fixed suffix stream for concrete runs: every draw is empty. -/
def uuid0 : Nat → Str := fun _ => []

/-- Numeric value read back from a decimal digit string; used to prove
that the digit rendering is injective. -/
def digitsVal (s : Str) : Nat :=
  s.foldl (fun acc c => acc * 10 + (c.toNat - 48)) 0

/-- Overlap relation between consecutive sub-chunks of a split fragment:
the first is at least 200 characters long and its last 200 characters are
exactly the first 200 characters of the second. -/
def overlap200 (a b : Str) : Prop :=
  200 ≤ a.length ∧ a.drop (a.length - 200) = b.take 200

/-- Example text whose earliest heading occurrence belongs to a
later-priority pattern: the numbered heading opens the text, the chapter
heading only opens the second line. -/
def posExample : Str := "1.2 Numbers\nChapter 5 Intro".toList

/-- The span pattern 3 finds in `posExample`, at position zero. -/
def numSpanEx : Str := "1.2 Numbers".toList

/-- The span pattern 1 finds in `posExample`, on the second line. -/
def chapSpanEx : Str := "Chapter 5 Intro".toList

/-- Example text matched by pattern 2 but not pattern 1. -/
def secExample : Str := "intro\nSECTION 3: Loss".toList

/-- Example text matched by pattern 4 (and hence by pattern 3). -/
def numExample : Str := "3.4 Title of part".toList

/-- A one-page document with a chapter heading, for concrete runs. -/
def pageC1 : Document := ⟨"Chapter 1".toList, [("source", .str "b.pdf".toList), ("page", .nat 0)]⟩

/-- A page whose heading contains both the chapter and the section
keyword. -/
def mixPage : Document :=
  ⟨"Chapter 9 Section 2".toList, [("source", .str "b.pdf".toList), ("page", .nat 0)]⟩

/-- A page consisting of whitespace only. -/
def wsPage : Document := ⟨"  \n\t \n".toList, [("source", .str "b.pdf".toList), ("page", .nat 0)]⟩

/-- The three page texts of the chapter-inheritance scenario: a chapter
page, a heading-free page, a second chapter page. -/
def inheritTexts : List Str :=
  ["Chapter 1".toList, "plain body text with no heading".toList, "Chapter 2".toList]

/-- The tagged chunk documents of the chapter-inheritance scenario, with
the arguments `ingest_pdf_to_vectordb` passes for the path b.pdf. -/
def inheritRun : List Document :=
  processPages (basename "b.pdf".toList) (splitextRoot (basename "b.pdf".toList)) uuid0
    (pageDocs "b.pdf".toList inheritTexts) none 0

/-- The single page text of the untagged-index scenario. -/
def onePageText : Str := "Chapter 1\nHello world".toList

/-- A full concrete ingestion run over one page. -/
def res1 : Except IngestError IngestReturn × List Str :=
  ingest_pdf_to_vectordb "book.pdf".toList (.ok [onePageText]) uuid0

/-- A page whose heading is a section heading. -/
def pageSec : Document :=
  ⟨"intro\nSECTION 3: Loss".toList, [("source", .str "b.pdf".toList), ("page", .nat 0)]⟩

/-- A page with no heading at all. -/
def pagePlain : Document :=
  ⟨"plain body text with no heading".toList,
    [("source", .str "b.pdf".toList), ("page", .nat 1)]⟩

/-- The first chunk document emitted for `pageSec` in a concrete run. -/
def secChunkDoc : Document :=
  ((pageStep "b.pdf".toList "b".toList uuid0 none 0 pageSec).1).getD 0 ⟨[], []⟩

lemma findSome?_eq_of_take_none {α β : Type} (f : α → Option β) :
    ∀ (l : List α) (i : Nat) (hi : i < l.length),
      (∀ a ∈ l.take i, f a = none) → (f (l.get ⟨i, hi⟩)).isSome →
      l.findSome? f = f (l.get ⟨i, hi⟩) := by
  intro l
  induction l with
  | nil => intro i hi; simp at hi
  | cons a t ih =>
    intro i hi hprev hsome
    cases i with
    | zero =>
      simp only [List.get] at hsome ⊢
      cases hfa : f a with
      | none => rw [hfa] at hsome; simp at hsome
      | some b => simp [List.findSome?_cons, hfa]
    | succ j =>
      have ha : f a = none := hprev a (by simp)
      have hrest : ∀ x ∈ t.take j, f x = none := by
        intro x hx
        exact hprev x (by simp [List.take_cons]; right; exact hx)
      simp only [List.get] at hsome ⊢
      rw [List.findSome?_cons, ha]
      exact ih j (by simpa using hi) hrest hsome

lemma findSome?_isSome_mono {α β : Type} {f g : α → Option β}
    (h : ∀ a, (f a).isSome → (g a).isSome) :
    ∀ l : List α, (l.findSome? f).isSome → (l.findSome? g).isSome := by
  intro l
  induction l with
  | nil => simp
  | cons a t ih =>
    intro hl
    rw [List.findSome?_cons] at hl ⊢
    cases hga : g a with
    | some b => simp
    | none =>
      have hfa : f a = none := by
        cases hfa : f a with
        | none => rfl
        | some c =>
          have := h a (by simp [hfa])
          rw [hga] at this; simp at this
      rw [hfa] at hl
      exact ih hl

lemma matchNumAlphaAt_isSome {s : Str} (h : (matchNumAlphaAt s).isSome) :
    (matchNumAt s).isSome := by
  unfold matchNumAlphaAt at h
  unfold matchNumAt
  cases hp : parseNumHead s with
  | none => rw [hp] at h; simp at h
  | some v =>
    obtain ⟨num, w, r3⟩ := v
    rw [hp] at h
    simp only at h ⊢
    by_cases hw : w.isEmpty
    · simp [hw] at h
    · simp only [hw, if_false, Bool.false_eq_true] at h ⊢
      cases r3 with
      | nil => simp at h
      | cons c cs => simp

lemma searchPat_numAlpha_isSome {t : Str} (h : (searchPat matchNumAlphaAt t).isSome) :
    (searchPat matchNumAt t).isSome :=
  findSome?_isSome_mono (fun _ ha => matchNumAlphaAt_isSome ha) _ h

/-- C9: pattern 3 subsumes pattern 4.  Whenever the stricter
numbered-heading pattern (dotted numeral, whitespace, then a letter) finds
a match in a text, the general numbered-heading pattern (dotted numeral,
whitespace, then any content) finds one too; consequently the pattern loop
of `extract_heading` never returns a result attributed to pattern 4, and
`extract_heading` is unchanged when pattern 4 is deleted from the list. -/
theorem C9_pattern3_subsumes_pattern4 (t : Str) :
    ((searchPat matchNumAlphaAt t).isSome → (searchPat matchNumAt t).isSome) ∧
    extract_heading t =
      [matchChapterAt, matchSectionAt, matchNumAt, matchDiagAt].findSome?
        (fun m => searchPat m t) := by
  refine ⟨searchPat_numAlpha_isSome, ?_⟩
  unfold extract_heading HEADING_PATTERNS
  cases h1 : searchPat matchChapterAt t with
  | some b => simp [List.findSome?_cons, h1]
  | none =>
    cases h2 : searchPat matchSectionAt t with
    | some b => simp [List.findSome?_cons, h1, h2]
    | none =>
      cases h3 : searchPat matchNumAt t with
      | some b => simp [List.findSome?_cons, h1, h2, h3]
      | none =>
        have h4 : searchPat matchNumAlphaAt t = none := by
          cases h4 : searchPat matchNumAlphaAt t with
          | none => rfl
          | some c =>
            have := searchPat_numAlpha_isSome (t := t) (by simp [h4])
            rw [h3] at this; simp at this
        simp [List.findSome?_cons, h1, h2, h3, h4]

/-- Witness for C9 at a concrete text matched by pattern 4: the theorem
yields that pattern 3 matches it as well. -/
theorem C9_pattern3_subsumes_pattern4_witness :
    (searchPat matchNumAt numExample).isSome ∧
    extract_heading numExample =
      [matchChapterAt, matchSectionAt, matchNumAt, matchDiagAt].findSome?
        (fun m => searchPat m numExample) :=
  ⟨(C9_pattern3_subsumes_pattern4 numExample).1 (by decide),
   (C9_pattern3_subsumes_pattern4 numExample).2⟩

lemma findSome?_eq_none_of_all {α β : Type} {f : α → Option β} :
    ∀ {l : List α}, (∀ a ∈ l, f a = none) → l.findSome? f = none := by
  intro l
  induction l with
  | nil => intro _; rfl
  | cons a t ih =>
    intro hall
    rw [List.findSome?_cons, hall a (by simp)]
    exact ih fun x hx => hall x (by simp [hx])

/-- C5: heading extraction is priority-over-position.  If every pattern
before index i fails to match anywhere in the text and pattern i matches,
then `extract_heading` returns the span pattern i found; when no pattern
matches, the result is none.  The concrete conjuncts exhibit the
position-independence: in `posExample` pattern 3 matches at position zero
(its span is a prefix of the text) while pattern 1 matches only later
(its span is not a prefix), yet `extract_heading` returns the pattern 1
span because category order outranks textual order. -/
theorem C5_heading_priority_over_position (t : Str) (i : Nat)
    (hi : i < HEADING_PATTERNS.length)
    (hprev : ∀ m ∈ HEADING_PATTERNS.take i, searchPat m t = none)
    (hm : (searchPat (HEADING_PATTERNS.get ⟨i, hi⟩) t).isSome) :
    extract_heading t = searchPat (HEADING_PATTERNS.get ⟨i, hi⟩) t ∧
    (∀ s, (∀ m ∈ HEADING_PATTERNS, searchPat m s = none) → extract_heading s = none) ∧
    extract_heading posExample = some chapSpanEx ∧
    searchPat matchNumAt posExample = some numSpanEx ∧
    posExample.take numSpanEx.length = numSpanEx ∧
    posExample.take chapSpanEx.length ≠ chapSpanEx := by
  refine ⟨?_, ?_, by decide, by decide, by decide, by decide⟩
  · exact findSome?_eq_of_take_none _ HEADING_PATTERNS i hi hprev hm
  · intro s hall
    exact findSome?_eq_none_of_all fun m hm => hall m hm

/-- Witness for C5 at a concrete text whose heading comes from pattern 2:
pattern 1 fails everywhere, pattern 2 matches, and the theorem computes
the extracted heading. -/
theorem C5_heading_priority_over_position_witness :
    extract_heading secExample = searchPat (HEADING_PATTERNS.get ⟨1, by decide⟩) secExample :=
  (C5_heading_priority_over_position secExample 1 (by decide)
    (by
      intro m hm
      have : m = matchChapterAt := by
        simpa [HEADING_PATTERNS] using hm
      rw [this]; decide)
    (by decide)).1

lemma chapterMetaOf_mk (content : Str) (book chap sect : Str) (pn : Option Nat)
    (base idv : Str) :
    chapterMetaOf ⟨content, chunkMeta book chap sect pn base idv⟩ = some (.str chap) := rfl

lemma sectionMetaOf_mk (content : Str) (book chap sect : Str) (pn : Option Nat)
    (base idv : Str) :
    sectionMetaOf ⟨content, chunkMeta book chap sect pn base idv⟩ = some (.str sect) := rfl

lemma chunkIdOf_mk (content : Str) (book chap sect : Str) (pn : Option Nat)
    (base idv : Str) :
    chunkIdOf ⟨content, chunkMeta book chap sect pn base idv⟩ = some (.str idv) := rfl

lemma tagFragment_of_chapter {h : Option Str} (cur : Option Str)
    (hc : classifiedChapter h = true) :
    tagFragment h cur = (some (h.getD []), none, some (h.getD [])) := by
  unfold classifiedChapter at hc
  rw [Bool.and_eq_true] at hc
  obtain ⟨ht, hcont⟩ := hc
  unfold tagFragment
  rw [ht, hcont]
  rfl

lemma tagFragment_of_not_chapter {h : Option Str} (cur : Option Str)
    (hc : classifiedChapter h = false) :
    (tagFragment h cur).1 = cur ∧ (tagFragment h cur).2.2 = cur := by
  unfold classifiedChapter at hc
  unfold tagFragment
  generalize hA : containsSub chapterWord (lowerStr (h.getD [])) = A at hc ⊢
  generalize hB : containsSub sectionWord (lowerStr (h.getD [])) = B
  generalize hC : numHeadingMatch (h.getD []) = C
  generalize hT : truthy h = T at hc ⊢
  cases T <;> cases A <;> cases B <;> cases C <;> simp_all

lemma tagFragment_section_val (h cur : Option Str) :
    (tagFragment h cur).2.1 =
      if classifiedSection h = true then some (h.getD []) else none := by
  unfold tagFragment classifiedSection classifiedChapter
  generalize hA : containsSub chapterWord (lowerStr (h.getD [])) = A
  generalize hB : containsSub sectionWord (lowerStr (h.getD [])) = B
  generalize hC : numHeadingMatch (h.getD []) = C
  generalize hT : truthy h = T
  cases T <;> cases A <;> cases B <;> cases C <;> simp

lemma emitChunks_nil (base book : Str) (uuid : Nat → Str) (pn : Option Nat) (fi : Nat)
    (ch st : Option Str) (k : Nat) :
    emitChunks base book uuid pn fi ch st [] k = ([], k) := rfl

lemma emitChunks_cons_skip {base book : Str} {uuid : Nat → Str} {pn : Option Nat}
    {fi : Nat} {ch st : Option Str} {sidx : Nat} {raw : Str} {rest : List (Nat × Str)}
    {k : Nat} (hstrip : (pyStrip raw).isEmpty = true) :
    emitChunks base book uuid pn fi ch st ((sidx, raw) :: rest) k =
      emitChunks base book uuid pn fi ch st rest k := by
  have h0 : pyStrip raw = [] := by simpa using hstrip
  conv_lhs => rw [emitChunks]
  simp [h0]

lemma emitChunks_cons_keep {base book : Str} {uuid : Nat → Str} {pn : Option Nat}
    {fi : Nat} {ch st : Option Str} {sidx : Nat} {raw : Str} {rest : List (Nat × Str)}
    {k : Nat} (hstrip : (pyStrip raw).isEmpty = false) :
    emitChunks base book uuid pn fi ch st ((sidx, raw) :: rest) k =
      (⟨pyStrip raw, chunkMeta book (ch.getD []) (st.getD []) pn base
          (chunkIdStr base pn fi sidx (uuid k))⟩ ::
          (emitChunks base book uuid pn fi ch st rest (k + 1)).1,
        (emitChunks base book uuid pn fi ch st rest (k + 1)).2) := by
  have h0 : ¬ pyStrip raw = [] := by simpa using hstrip
  rcases he : emitChunks base book uuid pn fi ch st rest (k + 1) with ⟨ds, k2⟩
  conv_lhs => rw [emitChunks]
  rw [he]
  simp [h0, chunkMeta]

lemma pageStep_eq (base book : Str) (uuid : Nat → Str) (cur : Option Str) (k : Nat)
    (pd : Document) :
    pageStep base book uuid cur k pd =
      ((emitChunks base book uuid (pageNumOf pd) 0
          (tagFragment (extract_heading pd.page_content) cur).1
          (tagFragment (extract_heading pd.page_content) cur).2.1
          ((small_chunks pd.page_content).enum) k).1,
        (tagFragment (extract_heading pd.page_content) cur).2.2,
        (emitChunks base book uuid (pageNumOf pd) 0
          (tagFragment (extract_heading pd.page_content) cur).1
          (tagFragment (extract_heading pd.page_content) cur).2.1
          ((small_chunks pd.page_content).enum) k).2) := by
  rcases htag : tagFragment (extract_heading pd.page_content) cur with ⟨chapter, sectionTag, cur'⟩
  rcases hemit : emitChunks base book uuid (metaGetNat pd.metadata "page") 0
      chapter sectionTag ((small_chunks pd.page_content).enum) k with ⟨emitted, k'⟩
  simp [pageStep, processFragments, pageNumOf, htag, hemit]

lemma emitChunks_mem {base book : Str} {uuid : Nat → Str} {pn : Option Nat} {fi : Nat}
    {ch st : Option Str} :
    ∀ {pairs : List (Nat × Str)} {k : Nat} {d : Document},
      d ∈ (emitChunks base book uuid pn fi ch st pairs k).1 →
      ∃ sidx raw j, (sidx, raw) ∈ pairs ∧ (pyStrip raw).isEmpty = false ∧
        d = ⟨pyStrip raw, chunkMeta book (ch.getD []) (st.getD []) pn base
              (chunkIdStr base pn fi sidx (uuid j))⟩ := by
  intro pairs
  induction pairs with
  | nil => intro k d hd; simp [emitChunks_nil] at hd
  | cons p rest ih =>
    intro k d hd
    obtain ⟨sidx, raw⟩ := p
    by_cases hstrip : (pyStrip raw).isEmpty
    · rw [emitChunks_cons_skip hstrip] at hd
      obtain ⟨s, r, j, hmem, hne, hde⟩ := ih hd
      exact ⟨s, r, j, by simp [hmem], hne, hde⟩
    · rw [emitChunks_cons_keep (by simpa using hstrip)] at hd
      rcases List.mem_cons.mp hd with hd | hd
      · exact ⟨sidx, raw, k, by simp, by simpa using hstrip, hd⟩
      · obtain ⟨s, r, j, hmem, hne, hde⟩ := ih hd
        exact ⟨s, r, j, by simp [hmem], hne, hde⟩

lemma emitChunks_map_section {base book : Str} {uuid : Nat → Str} {pn : Option Nat}
    {fi : Nat} {ch st : Option Str} :
    ∀ (pairs : List (Nat × Str)) (k : Nat),
      (emitChunks base book uuid pn fi ch st pairs k).1.map sectionMetaOf =
        (pairs.filter (fun p => !(pyStrip p.2).isEmpty)).map
          (fun _ => some (.str (st.getD []))) := by
  intro pairs
  induction pairs with
  | nil => intro k; rfl
  | cons p rest ih =>
    intro k
    obtain ⟨sidx, raw⟩ := p
    by_cases hstrip : (pyStrip raw).isEmpty
    · rw [emitChunks_cons_skip hstrip, ih k]
      simp [List.filter_cons, hstrip]
    · rw [emitChunks_cons_keep (by simpa using hstrip)]
      simp only [List.map_cons, sectionMetaOf_mk, ih (k + 1)]
      simp [List.filter_cons, hstrip]

lemma emitChunks_chapter_all {base book : Str} {uuid : Nat → Str} {pn : Option Nat}
    {fi : Nat} {ch st : Option Str} {pairs : List (Nat × Str)} {k : Nat} (d : Document)
    (hd : d ∈ (emitChunks base book uuid pn fi ch st pairs k).1) :
    chapterMetaOf d = some (.str (ch.getD [])) := by
  obtain ⟨s, r, j, _, _, hde⟩ := emitChunks_mem hd
  rw [hde]; rfl

lemma emitChunks_section_all {base book : Str} {uuid : Nat → Str} {pn : Option Nat}
    {fi : Nat} {ch st : Option Str} {pairs : List (Nat × Str)} {k : Nat} (d : Document)
    (hd : d ∈ (emitChunks base book uuid pn fi ch st pairs k).1) :
    sectionMetaOf d = some (.str (st.getD [])) := by
  obtain ⟨s, r, j, _, _, hde⟩ := emitChunks_mem hd
  rw [hde]; rfl

lemma processPages_cons (base book : Str) (uuid : Nat → Str) (pd : Document)
    (rest : List Document) (cur : Option Str) (k : Nat) :
    processPages base book uuid (pd :: rest) cur k =
      (pageStep base book uuid cur k pd).1 ++
        processPages base book uuid rest (pageStep base book uuid cur k pd).2.1
          (pageStep base book uuid cur k pd).2.2 := by
  rcases h : pageStep base book uuid cur k pd with ⟨docs, cur', k'⟩
  conv_lhs => rw [processPages]
  rw [h]

lemma processPages_mem {base book : Str} {uuid : Nat → Str} :
    ∀ {pds : List Document} {cur : Option Str} {k : Nat} {d : Document},
      d ∈ processPages base book uuid pds cur k →
      ∃ pd ∈ pds, ∃ cur2 k2, d ∈ (pageStep base book uuid cur2 k2 pd).1 := by
  intro pds
  induction pds with
  | nil => intro cur k d hd; simp [processPages] at hd
  | cons pd rest ih =>
    intro cur k d hd
    rw [processPages_cons] at hd
    rcases List.mem_append.mp hd with hd | hd
    · exact ⟨pd, by simp, cur, k, hd⟩
    · obtain ⟨pd2, hpd2, cur2, k2, hmem⟩ := ih hd
      exact ⟨pd2, by simp [hpd2], cur2, k2, hmem⟩

lemma mem_enumFrom_le {α : Type} :
    ∀ {l : List α} {n : Nat} {p : Nat × α}, p ∈ List.enumFrom n l → n ≤ p.1 := by
  intro l
  induction l with
  | nil => intro n p hp; simp [List.enumFrom] at hp
  | cons a t ih =>
    intro n p hp
    rw [show List.enumFrom n (a :: t) = (n, a) :: List.enumFrom (n + 1) t from rfl] at hp
    rcases List.mem_cons.mp hp with h | h
    · rw [h]
    · exact le_trans (by omega) (ih h)

lemma mem_of_mem_enumFrom {α : Type} :
    ∀ {l : List α} {n : Nat} {p : Nat × α}, p ∈ List.enumFrom n l → p.2 ∈ l := by
  intro l
  induction l with
  | nil => intro n p hp; simp [List.enumFrom] at hp
  | cons a t ih =>
    intro n p hp
    rw [show List.enumFrom n (a :: t) = (n, a) :: List.enumFrom (n + 1) t from rfl] at hp
    rcases List.mem_cons.mp hp with h | h
    · rw [h]; simp
    · simp [ih h]

lemma enumFrom_pairwise_fst {α : Type} :
    ∀ (l : List α) (n : Nat),
      (List.enumFrom n l).Pairwise (fun a b => a.1 ≠ b.1) := by
  intro l
  induction l with
  | nil => intro n; simp [List.enumFrom]
  | cons a t ih =>
    intro n
    rw [show List.enumFrom n (a :: t) = (n, a) :: List.enumFrom (n + 1) t from rfl]
    refine List.Pairwise.cons ?_ (ih (n + 1))
    intro b hb
    have := mem_enumFrom_le hb
    omega

lemma pyStrip_length_le (s : Str) : (pyStrip s).length ≤ s.length := by
  unfold pyStrip
  calc ((s.dropWhile isPySpace).reverse.dropWhile isPySpace).reverse.length
      = ((s.dropWhile isPySpace).reverse.dropWhile isPySpace).length := by
        rw [List.length_reverse]
    _ ≤ (s.dropWhile isPySpace).reverse.length :=
        (List.dropWhile_suffix _).sublist.length_le
    _ = (s.dropWhile isPySpace).length := by rw [List.length_reverse]
    _ ≤ s.length := (List.dropWhile_suffix _).sublist.length_le

lemma pyStrip_nil_of_all {s : Str} (h : s.all isPySpace = true) : pyStrip s = [] := by
  unfold pyStrip
  have h1 : s.dropWhile isPySpace = [] := by
    rw [List.dropWhile_eq_nil_iff]
    intro x hx
    exact List.all_eq_true.mp h x hx
  rw [h1]
  rfl

lemma windowsFrom_mem_length (s : Str) :
    ∀ (n off : Nat), s.length - off ≤ n →
      ∀ w ∈ windowsFrom s off, w.length ≤ 1000 := by
  intro n
  induction n with
  | zero =>
    intro off hoff w hw
    rw [windowsFrom] at hw
    rw [dif_neg (by omega)] at hw
    rcases List.mem_singleton.mp hw with h
    rw [h, List.length_drop]
    omega
  | succ n ih =>
    intro off hoff w hw
    rw [windowsFrom] at hw
    by_cases hc : off + 1000 < s.length
    · rw [dif_pos hc] at hw
      rcases List.mem_cons.mp hw with h | h
      · rw [h, List.length_take]
        omega
      · exact ih (off + 800) (by omega) w h
    · rw [dif_neg hc] at hw
      rcases List.mem_singleton.mp hw with h
      rw [h, List.length_drop]
      omega

lemma windowsFrom_mem_subset (s : Str) :
    ∀ (n off : Nat), s.length - off ≤ n →
      ∀ w ∈ windowsFrom s off, ∀ c ∈ w, c ∈ s := by
  intro n
  induction n with
  | zero =>
    intro off hoff w hw c hc
    rw [windowsFrom, dif_neg (by omega)] at hw
    rcases List.mem_singleton.mp hw with h
    rw [h] at hc
    exact List.mem_of_mem_drop hc
  | succ n ih =>
    intro off hoff w hw c hc
    rw [windowsFrom] at hw
    by_cases hcond : off + 1000 < s.length
    · rw [dif_pos hcond] at hw
      rcases List.mem_cons.mp hw with h | h
      · rw [h] at hc
        exact List.mem_of_mem_drop (List.mem_of_mem_take hc)
      · exact ih (off + 800) (by omega) w h c hc
    · rw [dif_neg hcond] at hw
      rcases List.mem_singleton.mp hw with h
      rw [h] at hc
      exact List.mem_of_mem_drop hc

lemma small_chunks_mem_length {s r : Str} (hr : r ∈ small_chunks s) : r.length ≤ 1000 := by
  unfold small_chunks at hr
  by_cases hlen : 1000 < s.length
  · rw [if_pos hlen] at hr
    unfold split_text at hr
    rw [if_neg (by omega)] at hr
    exact windowsFrom_mem_length s s.length 0 (by omega) r hr
  · rw [if_neg hlen] at hr
    rcases List.mem_singleton.mp hr with h
    rw [h]
    omega

lemma small_chunks_all_ws {s : Str} (h : s.all isPySpace = true) :
    ∀ r ∈ small_chunks s, r.all isPySpace = true := by
  intro r hr
  unfold small_chunks at hr
  by_cases hlen : 1000 < s.length
  · rw [if_pos hlen] at hr
    unfold split_text at hr
    rw [if_neg (by omega)] at hr
    rw [List.all_eq_true]
    intro c hc
    exact List.all_eq_true.mp h c (windowsFrom_mem_subset s s.length 0 (by omega) r hr c hc)
  · rw [if_neg hlen] at hr
    rcases List.mem_singleton.mp hr with hh
    rw [hh]
    exact h

lemma emitChunks_all_empty {base book : Str} {uuid : Nat → Str} {pn : Option Nat}
    {fi : Nat} {ch st : Option Str} :
    ∀ {pairs : List (Nat × Str)} {k : Nat},
      (∀ p ∈ pairs, (pyStrip p.2).isEmpty = true) →
      (emitChunks base book uuid pn fi ch st pairs k).1 = [] := by
  intro pairs
  induction pairs with
  | nil => intro k _; rfl
  | cons p rest ih =>
    intro k hall
    obtain ⟨sidx, raw⟩ := p
    rw [emitChunks_cons_skip (hall (sidx, raw) (by simp))]
    exact ih fun q hq => hall q (by simp [hq])

/-- C2: chapter inheritance.  A page whose extracted heading is classified
as chapter updates the carried state to that heading and its chunks carry
the heading as chapter; a page without a chapter-classified heading leaves
the state unchanged and its chunks carry the most recently seen chapter
heading (empty while none has appeared).  The concrete conjunct runs the
three-page scenario: the chunks of the heading-free middle page carry
chapter Chapter 1. -/
theorem C2_chapter_inheritance (base book : Str) (uuid : Nat → Str) (pd : Document)
    (cur : Option Str) (k : Nat) :
    (classifiedChapter (extract_heading pd.page_content) = true →
      (pageStep base book uuid cur k pd).2.1 =
          some ((extract_heading pd.page_content).getD []) ∧
      ∀ d ∈ (pageStep base book uuid cur k pd).1,
        chapterMetaOf d = some (.str ((extract_heading pd.page_content).getD []))) ∧
    (classifiedChapter (extract_heading pd.page_content) = false →
      (pageStep base book uuid cur k pd).2.1 = cur ∧
      ∀ d ∈ (pageStep base book uuid cur k pd).1,
        chapterMetaOf d = some (.str (cur.getD []))) ∧
    inheritRun.map (fun d => (metaGet d.metadata "page_number", chapterMetaOf d)) =
      [(some (.nat 0), some (.str "Chapter 1".toList)),
       (some (.nat 1), some (.str "Chapter 1".toList)),
       (some (.nat 2), some (.str "Chapter 2".toList))] := by
  refine ⟨?_, ?_, by decide⟩
  · intro hc
    rw [pageStep_eq]
    rw [tagFragment_of_chapter cur hc]
    constructor
    · rfl
    · intro d hd
      have := emitChunks_chapter_all d hd
      simpa using this
  · intro hc
    obtain ⟨h1, h2⟩ := tagFragment_of_not_chapter cur hc
    rw [pageStep_eq, h1, h2]
    exact ⟨rfl, fun d hd => emitChunks_chapter_all d hd⟩

/-- Witness for C2: the chapter page updates the state to its heading,
and a heading-free page keeps the inherited state. -/
theorem C2_chapter_inheritance_witness :
    (pageStep "b.pdf".toList "b".toList uuid0 none 0 pageC1).2.1 =
        some "Chapter 1".toList ∧
    (pageStep "b.pdf".toList "b".toList uuid0 (some "Chapter 1".toList) 1 pagePlain).2.1 =
        some "Chapter 1".toList :=
  ⟨((C2_chapter_inheritance "b.pdf".toList "b".toList uuid0 pageC1 none 0).1 (by decide)).1,
   ((C2_chapter_inheritance "b.pdf".toList "b".toList uuid0 pagePlain
      (some "Chapter 1".toList) 1).2.1 (by decide)).1⟩

/-- C10: chapter classification takes precedence over section
classification.  For a page whose extracted heading is chapter-classified,
every chunk of the page carries the heading as chapter and the empty
string as section, even when the heading also contains the section
keyword; the concrete conjuncts exhibit this on the heading
Chapter 9 Section 2, which contains both keywords. -/
theorem C10_chapter_over_section (base book : Str) (uuid : Nat → Str) (pd : Document)
    (cur : Option Str) (k : Nat)
    (hc : classifiedChapter (extract_heading pd.page_content) = true) :
    (∀ d ∈ (pageStep base book uuid cur k pd).1,
        chapterMetaOf d = some (.str ((extract_heading pd.page_content).getD [])) ∧
        sectionMetaOf d = some (.str [])) ∧
    containsSub sectionWord (lowerStr ((extract_heading mixPage.page_content).getD [])) = true ∧
    classifiedChapter (extract_heading mixPage.page_content) = true ∧
    (pageStep "b.pdf".toList "b".toList uuid0 none 0 mixPage).1.map
        (fun d => (chapterMetaOf d, sectionMetaOf d)) =
      [(some (.str "Chapter 9 Section 2".toList), some (.str []))] := by
  refine ⟨?_, by decide, by decide, by decide⟩
  intro d hd
  rw [pageStep_eq, tagFragment_of_chapter cur hc] at hd
  constructor
  · have := emitChunks_chapter_all d hd
    simpa using this
  · have := emitChunks_section_all d hd
    simpa using this

/-- Witness for C10 at the mixed heading: the theorem applies because the
heading is chapter-classified, and computes the tags of the emitted
chunk. -/
theorem C10_chapter_over_section_witness :
    (pageStep "b.pdf".toList "b".toList uuid0 none 0 mixPage).1.map
        (fun d => (chapterMetaOf d, sectionMetaOf d)) =
      [(some (.str "Chapter 9 Section 2".toList), some (.str []))] :=
  (C10_chapter_over_section "b.pdf".toList "b".toList uuid0 mixPage none 0
    (by decide)).2.2.2

/-- C8: the section tag is page-local.  Every chunk of a page carries as
section exactly the classification of that page's own extracted heading
(the heading when it is section-classified, the empty string otherwise);
a nonempty section value forces the page's own heading to be
section-classified and equal to it; and the section tags of a page's
chunks do not depend on the incoming chapter state, so a section value is
never inherited from a previous page — only the chapter state carries
forward. -/
theorem C8_section_page_local (base book : Str) (uuid : Nat → Str) (pd : Document)
    (cur cur2 : Option Str) (k k2 : Nat) :
    (∀ d ∈ (pageStep base book uuid cur k pd).1,
        sectionMetaOf d = some (.str
          (if classifiedSection (extract_heading pd.page_content) = true
            then (extract_heading pd.page_content).getD [] else []))) ∧
    (∀ d ∈ (pageStep base book uuid cur k pd).1, ∀ s : Str,
        sectionMetaOf d = some (.str s) → s.isEmpty = false →
        classifiedSection (extract_heading pd.page_content) = true ∧
        s = (extract_heading pd.page_content).getD []) ∧
    (pageStep base book uuid cur k pd).1.map sectionMetaOf =
      (pageStep base book uuid cur2 k2 pd).1.map sectionMetaOf := by
  have key : ∀ (c : Option Str) (kk : Nat) (d : Document),
      d ∈ (pageStep base book uuid c kk pd).1 →
      sectionMetaOf d = some (.str
        (if classifiedSection (extract_heading pd.page_content) = true
          then (extract_heading pd.page_content).getD [] else [])) := by
    intro c kk d hd
    rw [pageStep_eq] at hd
    have h := emitChunks_section_all d hd
    rw [tagFragment_section_val] at h
    by_cases hcs : classifiedSection (extract_heading pd.page_content) = true
    · simpa [hcs] using h
    · simpa [hcs] using h
  refine ⟨key cur k, ?_, ?_⟩
  · intro d hd s hs hne
    have h1 := key cur k d hd
    rw [hs] at h1
    by_cases hcs : classifiedSection (extract_heading pd.page_content) = true
    · rw [if_pos hcs] at h1
      simp only [Option.some.injEq, MVal.str.injEq] at h1
      exact ⟨hcs, h1⟩
    · rw [if_neg hcs] at h1
      simp only [Option.some.injEq, MVal.str.injEq] at h1
      rw [h1] at hne
      simp at hne
  · rw [pageStep_eq, pageStep_eq]
    dsimp only
    rw [emitChunks_map_section, emitChunks_map_section,
      tagFragment_section_val, tagFragment_section_val]

/-- Witness for C8: the section page yields a chunk whose section tag is
its own heading, and the tags do not change when the incoming chapter
state and counter change. -/
theorem C8_section_page_local_witness :
    sectionMetaOf secChunkDoc = some (.str
      (if classifiedSection (extract_heading pageSec.page_content) = true
        then (extract_heading pageSec.page_content).getD [] else [])) ∧
    (pageStep "b.pdf".toList "b".toList uuid0 none 0 pageSec).1.map sectionMetaOf =
      (pageStep "b.pdf".toList "b".toList uuid0 (some "Chapter 0".toList) 7 pageSec).1.map
        sectionMetaOf :=
  ⟨(C8_section_page_local "b.pdf".toList "b".toList uuid0 pageSec none none 0 0).1
      secChunkDoc (by decide),
   (C8_section_page_local "b.pdf".toList "b".toList uuid0 pageSec none
      (some "Chapter 0".toList) 0 7).2.2⟩

/-- C7: empty sub-chunks are discarded and never surfaced.  Every chunk
document the page loop emits has nonempty content (each sub-chunk is
stripped and skipped when empty), and a page whose text is entirely
whitespace contributes zero chunk documents. -/
theorem C7_empty_chunks_discarded (base book : Str) (uuid : Nat → Str) :
    (∀ (pds : List Document) (cur : Option Str) (k : Nat) (d : Document),
        d ∈ processPages base book uuid pds cur k → d.page_content.isEmpty = false) ∧
    (∀ (pd : Document) (cur : Option Str) (k : Nat),
        pd.page_content.all isPySpace = true →
        (pageStep base book uuid cur k pd).1 = []) := by
  constructor
  · intro pds cur k d hd
    obtain ⟨pd, _, cur2, k2, hmem⟩ := processPages_mem hd
    rw [pageStep_eq] at hmem
    obtain ⟨s, r, j, _, hne, hde⟩ := emitChunks_mem hmem
    rw [hde]
    simpa using hne
  · intro pd cur k hws
    rw [pageStep_eq]
    dsimp only
    apply emitChunks_all_empty
    intro p hp
    have hp2 : p ∈ List.enumFrom 0 (small_chunks pd.page_content) := hp
    have hraw : p.2 ∈ small_chunks pd.page_content := mem_of_mem_enumFrom hp2
    have hall := small_chunks_all_ws hws p.2 hraw
    rw [pyStrip_nil_of_all hall]
    rfl

/-- Witness for C7: the whitespace-only page produces zero chunks. -/
theorem C7_empty_chunks_discarded_witness :
    (pageStep "b.pdf".toList "b".toList uuid0 none 0 wsPage).1 = [] :=
  (C7_empty_chunks_discarded "b.pdf".toList "b".toList uuid0).2 wsPage none 0 (by decide)

lemma windowsFrom_head_take (s : Str) (off2 : Nat) {b : Str}
    (hb : b ∈ (windowsFrom s off2).head?) : b.take 200 = (s.drop off2).take 200 := by
  rw [windowsFrom] at hb
  by_cases hc : off2 + 1000 < s.length
  · rw [dif_pos hc] at hb
    simp only [List.head?_cons, Option.mem_def, Option.some.injEq] at hb
    rw [← hb, List.take_take]
    norm_num
  · rw [dif_neg hc] at hb
    simp only [List.head?_cons, Option.mem_def, Option.some.injEq] at hb
    rw [← hb]

lemma windowsFrom_chain (s : Str) :
    ∀ (n off : Nat), s.length - off ≤ n → (windowsFrom s off).Chain' overlap200 := by
  intro n
  induction n with
  | zero =>
    intro off hoff
    rw [windowsFrom, dif_neg (by omega)]
    exact List.chain'_singleton _
  | succ n ih =>
    intro off hoff
    rw [windowsFrom]
    by_cases hc : off + 1000 < s.length
    · rw [dif_pos hc]
      rw [List.chain'_cons']
      refine ⟨?_, ih (off + 800) (by omega)⟩
      intro b hb
      have hb200 : b.take 200 = (s.drop (off + 800)).take 200 :=
        windowsFrom_head_take s (off + 800) hb
      constructor
      · rw [List.length_take, List.length_drop]
        omega
      · rw [hb200]
        have hlen : ((s.drop off).take 1000).length = 1000 := by
          rw [List.length_take, List.length_drop]
          omega
        rw [hlen]
        rw [show (1000 : Nat) - 200 = 800 from rfl]
        rw [List.drop_take, List.drop_drop]
    · rw [dif_neg hc]
      exact List.chain'_singleton _

/-- C6: chunk size and overlap, against the splitter modelled from the
spec.  Every chunk document emitted by the page loop has content of
length at most 1000 (a window or a short fragment, then stripped); when a
fragment longer than 1000 characters is split, each pair of consecutive
sub-chunks overlaps in exactly 200 characters; a fragment of length at
most 1000 is kept as a single unit. -/
theorem C6_chunk_size_overlap (base book : Str) (uuid : Nat → Str) :
    (∀ (pds : List Document) (cur : Option Str) (k : Nat) (d : Document),
        d ∈ processPages base book uuid pds cur k → d.page_content.length ≤ 1000) ∧
    (∀ s : Str, 1000 < s.length → (split_text s).Chain' overlap200) ∧
    (∀ s : Str, s.length ≤ 1000 → small_chunks s = [s]) := by
  refine ⟨?_, ?_, ?_⟩
  · intro pds cur k d hd
    obtain ⟨pd, _, cur2, k2, hmem⟩ := processPages_mem hd
    rw [pageStep_eq] at hmem
    obtain ⟨si, r, j, hpair, _, hde⟩ := emitChunks_mem hmem
    have hpair2 : (si, r) ∈ List.enumFrom 0 (small_chunks pd.page_content) := hpair
    have hr : r ∈ small_chunks pd.page_content := mem_of_mem_enumFrom hpair2
    rw [hde]
    calc (pyStrip r).length ≤ r.length := pyStrip_length_le r
      _ ≤ 1000 := small_chunks_mem_length hr
  · intro s hs
    unfold split_text
    rw [if_neg (by omega)]
    exact windowsFrom_chain s s.length 0 (by omega)
  · intro s hs
    unfold small_chunks
    rw [if_neg (by omega)]

set_option maxRecDepth 100000 in
/-- Witness for C6: a two-character fragment stays a single unit, and the
windows of a 1001-character fragment are chained by the 200-character
overlap relation. -/
theorem C6_chunk_size_overlap_witness :
    small_chunks "hi".toList = ["hi".toList] ∧
    (split_text (List.replicate 1001 'a')).Chain' overlap200 :=
  ⟨(C6_chunk_size_overlap [] [] uuid0).2.2 "hi".toList (by decide),
   (C6_chunk_size_overlap [] [] uuid0).2.1 (List.replicate 1001 'a')
     (by rw [List.length_replicate]; omega)⟩

lemma toNat_ofNat_digit {m : Nat} (h : m < 10) : (Char.ofNat (48 + m)).toNat = 48 + m := by
  interval_cases m <;> decide

lemma natDigitsGo_digits :
    ∀ (fuel m : Nat), ∀ c ∈ natDigitsGo fuel m, c.isDigit = true := by
  intro fuel
  induction fuel with
  | zero => intro m c hc; simp [natDigitsGo] at hc
  | succ n ih =>
    intro m c hc
    rw [natDigitsGo] at hc
    by_cases hm : m < 10
    · rw [if_pos hm] at hc
      rcases List.mem_singleton.mp hc with h
      rw [h]
      interval_cases m <;> decide
    · rw [if_neg hm] at hc
      rcases List.mem_append.mp hc with h | h
      · exact ih _ c h
      · rcases List.mem_singleton.mp h with h2
        rw [h2]
        have h10 : m % 10 < 10 := Nat.mod_lt _ (by omega)
        generalize m % 10 = r at h10 h2
        interval_cases r <;> decide

lemma digitsVal_go : ∀ (fuel m : Nat), m < 10 ^ fuel →
    digitsVal (natDigitsGo fuel m) = m := by
  intro fuel
  induction fuel with
  | zero =>
    intro m hm
    interval_cases m
    rfl
  | succ n ih =>
    intro m hm
    rw [natDigitsGo]
    by_cases h10 : m < 10
    · rw [if_pos h10]
      unfold digitsVal
      rw [List.foldl_cons, List.foldl_nil]
      rw [toNat_ofNat_digit h10]
      omega
    · rw [if_neg h10]
      unfold digitsVal
      rw [List.foldl_append, List.foldl_cons, List.foldl_nil]
      have hdiv : m / 10 < 10 ^ n := by
        rw [Nat.div_lt_iff_lt_mul (by omega)]
        calc m < 10 ^ (n + 1) := hm
          _ = 10 ^ n * 10 := by rw [pow_succ]
      have ihm := ih (m / 10) hdiv
      unfold digitsVal at ihm
      rw [ihm]
      have hmod : m % 10 < 10 := Nat.mod_lt _ (by omega)
      rw [toNat_ofNat_digit hmod]
      omega

lemma natDigits_inj {a b : Nat} (h : natDigits a = natDigits b) : a = b := by
  have bound : ∀ n : Nat, n < 10 ^ (n + 1) := by
    intro n
    calc n < 10 ^ n := Nat.lt_pow_self (by norm_num) n
      _ ≤ 10 ^ (n + 1) := Nat.pow_le_pow_right (by norm_num) (by omega)
  have ha := digitsVal_go (a + 1) a (bound a)
  have hb := digitsVal_go (b + 1) b (bound b)
  unfold natDigits at h
  rw [h, hb] at ha
  exact ha.symm

lemma natDigits_no_underscore {n : Nat} : ∀ c ∈ natDigits n, c ≠ '_' := by
  intro c hc heq
  have hd := natDigitsGo_digits (n + 1) n c hc
  rw [heq] at hd
  exact absurd hd (by decide)

lemma pageNumStr_no_underscore (pn : Option Nat) : ∀ c ∈ pageNumStr pn, c ≠ '_' := by
  cases pn with
  | some n => exact natDigits_no_underscore
  | none =>
    intro c hc
    rw [show pageNumStr none = "None".toList from rfl] at hc
    have hcc : c = 'N' ∨ c = 'o' ∨ c = 'n' ∨ c = 'e' := by simpa using hc
    rcases hcc with h | h | h | h <;> rw [h] <;> decide

lemma pageNumStr_inj {p q : Option Nat} (h : pageNumStr p = pageNumStr q) : p = q := by
  cases p with
  | some a =>
    cases q with
    | some b => exact congrArg some (natDigits_inj h)
    | none =>
      exfalso
      have hn : ('N' : Char) ∈ natDigits a := by
        rw [show pageNumStr (some a) = natDigits a from rfl] at h
        rw [h]
        decide
      have hd := natDigitsGo_digits (a + 1) a 'N' hn
      exact absurd hd (by decide)
  | none =>
    cases q with
    | some b =>
      exfalso
      have hn : ('N' : Char) ∈ natDigits b := by
        rw [show pageNumStr (some b) = natDigits b from rfl] at h
        rw [← h]
        decide
      have hd := natDigitsGo_digits (b + 1) b 'N' hn
      exact absurd hd (by decide)
    | none => rfl

lemma underscore_sep :
    ∀ (xs : Str) {ys r s : Str}, (∀ c ∈ xs, c ≠ '_') → (∀ c ∈ ys, c ≠ '_') →
      xs ++ '_' :: r = ys ++ '_' :: s → xs = ys ∧ r = s := by
  intro xs
  induction xs with
  | nil =>
    intro ys r s _ hys heq
    cases ys with
    | nil =>
      simp only [List.nil_append] at heq
      injection heq with _ h2
      exact ⟨rfl, h2⟩
    | cons y t =>
      simp only [List.nil_append, List.cons_append] at heq
      injection heq with h1 _
      exact absurd h1.symm (hys y (by simp))
  | cons x t ih =>
    intro ys r s hxs hys heq
    cases ys with
    | nil =>
      simp only [List.nil_append, List.cons_append] at heq
      injection heq with h1 _
      exact absurd h1 (hxs x (by simp))
    | cons y u =>
      simp only [List.cons_append] at heq
      injection heq with h1 h2
      obtain ⟨e1, e2⟩ :=
        ih (fun c hc => hxs c (by simp [hc])) (fun c hc => hys c (by simp [hc])) h2
      exact ⟨by rw [h1, e1], e2⟩

lemma chunkIdStr_inj {base : Str} {pn1 pn2 : Option Nat} {f1 f2 s1 s2 : Nat}
    {u1 u2 : Str} (h : chunkIdStr base pn1 f1 s1 u1 = chunkIdStr base pn2 f2 s2 u2) :
    pn1 = pn2 ∧ f1 = f2 ∧ s1 = s2 := by
  unfold chunkIdStr at h
  have h1 := List.append_cancel_left h
  injection h1 with _ h2
  injection h2 with _ h3
  obtain ⟨e1, e2⟩ := underscore_sep _ (pageNumStr_no_underscore pn1)
    (pageNumStr_no_underscore pn2) h3
  injection e2 with _ e3
  obtain ⟨e4, e5⟩ := underscore_sep _ (natDigits_no_underscore)
    (natDigits_no_underscore) e3
  injection e5 with _ e6
  obtain ⟨e7, _⟩ := underscore_sep _ (natDigits_no_underscore)
    (natDigits_no_underscore) e6
  exact ⟨pageNumStr_inj e1, natDigits_inj e4, natDigits_inj e7⟩

lemma emitChunks_ids_nodup {base book : Str} {uuid : Nat → Str} {pn : Option Nat}
    {fi : Nat} {ch st : Option Str} :
    ∀ {pairs : List (Nat × Str)} {k : Nat},
      pairs.Pairwise (fun a b => a.1 ≠ b.1) →
      ((emitChunks base book uuid pn fi ch st pairs k).1.map chunkIdOf).Nodup := by
  intro pairs
  induction pairs with
  | nil => intro k _; simp [emitChunks_nil]
  | cons p rest ih =>
    intro k hpw
    obtain ⟨sidx, raw⟩ := p
    rw [List.pairwise_cons] at hpw
    obtain ⟨hhead, hrest⟩ := hpw
    by_cases hstrip : (pyStrip raw).isEmpty
    · rw [emitChunks_cons_skip hstrip]
      exact ih hrest
    · rw [emitChunks_cons_keep (by simpa using hstrip)]
      rw [List.map_cons, List.nodup_cons]
      refine ⟨?_, ih hrest⟩
      intro hmem
      obtain ⟨d, hd, hdid⟩ := List.mem_map.mp hmem
      obtain ⟨s2, r2, j2, hp2, _, hde⟩ := emitChunks_mem hd
      rw [hde, chunkIdOf_mk, chunkIdOf_mk] at hdid
      simp only [Option.some.injEq, MVal.str.injEq] at hdid
      obtain ⟨_, _, hss⟩ := chunkIdStr_inj hdid
      exact absurd hss.symm (hhead (s2, r2) hp2)

lemma pageStep_ids {base book : Str} {uuid : Nat → Str} {cur : Option Str} {k : Nat}
    {pd d : Document} (hd : d ∈ (pageStep base book uuid cur k pd).1) :
    ∃ sidx u, chunkIdOf d = some (.str (chunkIdStr base (pageNumOf pd) 0 sidx u)) := by
  rw [pageStep_eq] at hd
  obtain ⟨s, r, j, _, _, hde⟩ := emitChunks_mem hd
  exact ⟨s, uuid j, by rw [hde, chunkIdOf_mk]⟩

lemma pageStep_ids_nodup {base book : Str} {uuid : Nat → Str} {cur : Option Str}
    {k : Nat} {pd : Document} :
    ((pageStep base book uuid cur k pd).1.map chunkIdOf).Nodup := by
  rw [pageStep_eq]
  exact emitChunks_ids_nodup (enumFrom_pairwise_fst (small_chunks pd.page_content) 0)

lemma processPages_ids_nodup {base book : Str} {uuid : Nat → Str} :
    ∀ {pds : List Document}, pds.Pairwise (fun a b => pageNumOf a ≠ pageNumOf b) →
      ∀ (cur : Option Str) (k : Nat),
        ((processPages base book uuid pds cur k).map chunkIdOf).Nodup := by
  intro pds
  induction pds with
  | nil => intro _ cur k; simp [processPages]
  | cons pd rest ih =>
    intro hpw cur k
    rw [List.pairwise_cons] at hpw
    obtain ⟨hhead, hrest⟩ := hpw
    rw [processPages_cons, List.map_append, List.nodup_append]
    refine ⟨pageStep_ids_nodup, ih hrest _ _, ?_⟩
    rw [List.disjoint_left]
    intro x hx1 hx2
    obtain ⟨d1, hd1, hid1⟩ := List.mem_map.mp hx1
    obtain ⟨d2, hd2, hid2⟩ := List.mem_map.mp hx2
    obtain ⟨pd2, hpd2, cur2, k2, hmem2⟩ := processPages_mem hd2
    obtain ⟨s1, u1, he1⟩ := pageStep_ids hd1
    obtain ⟨s2, u2, he2⟩ := pageStep_ids hmem2
    rw [hid1] at he1
    rw [hid2] at he2
    rw [he2] at he1
    simp only [Option.some.injEq, MVal.str.injEq] at he1
    obtain ⟨hpn, _, _⟩ := chunkIdStr_inj he1.symm
    exact hhead pd2 hpd2 hpn

lemma pageDocs_pairwise (p : Str) (texts : List Str) :
    (pageDocs p texts).Pairwise (fun a b => pageNumOf a ≠ pageNumOf b) := by
  unfold pageDocs
  rw [List.pairwise_map]
  have base := enumFrom_pairwise_fst texts 0
  refine List.Pairwise.imp ?_ base
  intro a b hne heq
  apply hne
  have h2 : some a.1 = some b.1 := heq
  exact Option.some.inj h2

/-- C3: chunk identifier uniqueness.  For every ingestion run (arbitrary
path, page texts and stream of random suffixes), the chunk identifiers of
the tagged chunk documents produced by the page loop are pairwise
distinct: the deterministic part of the identifier already separates
pages by page number and sub-chunks by sub-chunk index, whatever the
random suffixes are. -/
theorem C3_chunk_id_unique (pdf_path : Str) (texts : List Str) (uuid : Nat → Str) :
    ((processPages (basename pdf_path) (splitextRoot (basename pdf_path)) uuid
        (pageDocs pdf_path texts) none 0).map chunkIdOf).Nodup :=
  processPages_ids_nodup (pageDocs_pairwise pdf_path texts) none 0

/-- C4 counterexample: a zero-page load does make ingestion fail with no
retriever and nothing persisted, but the error it fails with is the one
raised inside dense-index construction on the empty chunk list, not the
load error — so the claim that all three cases fail with LoadError is
false as stated. -/
theorem C4_zero_pages_error_not_load_error :
    ingest_pdf_to_vectordb "book.pdf".toList (.ok []) uuid0 =
      (.error .emptyIndexError, []) ∧
    IngestError.emptyIndexError ≠ IngestError.loadError :=
  ⟨rfl, by decide⟩

/-- C4 as amended: a missing or invalid path fails with the load error;
a zero-page document also aborts ingestion (failing during dense-index
construction rather than at load); in every such case no retriever is
returned and no index path is persisted. -/
theorem C4_fatal_load_failure (pdf_path : Str) (uuid : Nat → Str) (load : LoadResult)
    (h : load = .failed ∨ load = .ok []) :
    (ingest_pdf_to_vectordb pdf_path load uuid).1.isOk = false ∧
    (ingest_pdf_to_vectordb pdf_path load uuid).2 = [] ∧
    (load = .failed →
      (ingest_pdf_to_vectordb pdf_path load uuid).1 = .error .loadError) := by
  rcases h with h | h
  · rw [h]
    exact ⟨rfl, rfl, fun _ => rfl⟩
  · rw [h]
    refine ⟨rfl, rfl, ?_⟩
    intro hbad
    cases hbad

/-- Witness for C4 at a concrete path and the zero-page load: ingestion
reports failure and persists nothing. -/
theorem C4_fatal_load_failure_witness :
    (ingest_pdf_to_vectordb "book.pdf".toList (.ok []) uuid0).1.isOk = false ∧
    (ingest_pdf_to_vectordb "book.pdf".toList .failed uuid0).1 = .error .loadError :=
  ⟨(C4_fatal_load_failure "book.pdf".toList uuid0 (.ok []) (Or.inr rfl)).1,
   (C4_fatal_load_failure "book.pdf".toList uuid0 .failed (Or.inl rfl)).2.2 rfl⟩

/-- C1: the FAISS and TF-IDF indices of the hybrid retriever are built
from the raw splitter output, not from the metadata-tagged chunk
documents.  On a concrete one-page ingestion, every document in both
indexed corpora has no chapter, section or page-number metadata entry
(only the loader keys, such as source), while the tagged chunk document
in the returned chunk list carries all four citation fields; the indexed
corpora are not the tagged chunk sequence — so a search result drawn from
the indices cannot carry the four-part citation tag. -/
theorem C1_hybrid_indexes_untagged_chunks :
    (res1.1.map fun r => r.hybrid_retriever.retrievers.map (List.map fun d =>
        (metaGet d.metadata "chapter", metaGet d.metadata "section"))).toOption =
      some [[(none, none)], [(none, none)]] ∧
    (res1.1.map fun r => r.hybrid_retriever.retrievers.map (List.map fun d =>
        (metaGet d.metadata "page_number", metaGet d.metadata "source"))).toOption =
      some [[(none, some (.str "book.pdf".toList))],
            [(none, some (.str "book.pdf".toList))]] ∧
    (res1.1.map fun r => r.chunk_docs.map fun d =>
        ((metaGet d.metadata "chapter").isSome, (metaGet d.metadata "section").isSome,
         (metaGet d.metadata "page_number").isSome,
         (metaGet d.metadata "source").isSome)).toOption =
      some [(true, true, true, true)] ∧
    (res1.1.map fun r =>
        decide (r.hybrid_retriever.retrievers = [r.chunk_docs, r.chunk_docs])).toOption =
      some false :=
  ⟨by decide, by decide, by decide, by decide⟩
